import Mathlib

/-!
Verification of the tiered-map library (`src/lib.rs`): a scoped, hierarchical
associative container built as a singly-linked chain of tiers.  Each tier owns a
local hash table and borrows an optional parent tier, together with cached
`parent_cap` / `parent_size` snapshots taken when the tier was created.

The local `std::collections::HashMap` is modelled as an association list with
pairwise-distinct keys together with an abstract capacity counter.  The std
`HashMap` is an external collaborator; where its behaviour is only bounded by
its documentation (capacity after `with_capacity`, `reserve`, growth on insert)
we take the minimal documented behaviour: capacity is at least the requested /
required number of elements.  Iteration order of a hash table is unspecified;
the association-list order is one fixed representative of it.
-/

set_option autoImplicit false
set_option linter.unusedSectionVars false

namespace TieredMapModel

variable {K V : Type} [DecidableEq K] [DecidableEq V]

/-- Lookup in an association list: first entry with the given key, mirroring
`HashMap::get` on the model. -/
def assocGet : List (K × V) → K → Option V
  | [], _ => none
  | e :: rest, k => if e.1 = k then some e.2 else assocGet rest k

/-- Insert into an association list, replacing the first entry with the given
key (returning the replaced value) or appending a fresh entry, mirroring
`HashMap::insert`. -/
def assocInsert : List (K × V) → K → V → Option V × List (K × V)
  | [], k, v => (none, [(k, v)])
  | e :: rest, k, v =>
    if e.1 = k then (some e.2, (k, v) :: rest)
    else
      let r := assocInsert rest k v
      (r.1, e :: r.2)

/-- Model of the local `HashMap<K, V, H>`: the entries (keys pairwise distinct
for tables produced by the API) and an abstract capacity counter. -/
structure HMap (K V : Type) where
  entries : List (K × V)
  cap : Nat
  deriving DecidableEq

/-- Model of `TieredMap<'a, K, V, H>`: `base` is a tier with `parent: None`,
`cons` a tier with `parent: Some(..)`; both carry the local table and the
cached `parent_cap` / `parent_size` fields. -/
inductive TieredMap (K V : Type) : Type where
  | base (map : HMap K V) (parent_cap parent_size : Nat)
  | cons (parent : TieredMap K V) (map : HMap K V) (parent_cap parent_size : Nat)
  deriving DecidableEq

namespace TieredMap

/-- The `parent` field (`Option<&TieredMap>`). -/
def parent? : TieredMap K V → Option (TieredMap K V)
  | .base _ _ _ => none
  | .cons p _ _ _ => some p

/-- The local table (`self.map`). -/
def localMap : TieredMap K V → HMap K V
  | .base m _ _ => m
  | .cons _ m _ _ => m

/-- Entries of the local table. -/
def localEntries (t : TieredMap K V) : List (K × V) :=
  (localMap t).entries

/-- The cached `parent_cap` field. -/
def parentCap : TieredMap K V → Nat
  | .base _ pc _ => pc
  | .cons _ _ pc _ => pc

/-- The cached `parent_size` field. -/
def parentSize : TieredMap K V → Nat
  | .base _ _ ps => ps
  | .cons _ _ _ ps => ps

/-- Whether the tier has no parent. -/
def isBase : TieredMap K V → Bool
  | .base _ _ _ => true
  | .cons _ _ _ _ => false

/-- Rust `TieredMap::new()`: empty root, no parent, zero caches. -/
def new : TieredMap K V := .base ⟨[], 0⟩ 0 0

/-- Rust `TieredMap::with_capacity(c)`: empty root whose local table is pre-sized
(capacity modelled as exactly the requested size). -/
def with_capacity (c : Nat) : TieredMap K V := .base ⟨[], c⟩ 0 0

/-- Rust `TieredMap::capacity()`: `self.parent_cap + self.map.capacity()`. -/
def capacity (t : TieredMap K V) : Nat :=
  parentCap t + (localMap t).cap

/-- Rust `TieredMap::len()`: `self.parent_size + self.map.len()`. -/
def len (t : TieredMap K V) : Nat :=
  parentSize t + (localEntries t).length

/-- Replace the local table of a tier, keeping parent and caches. -/
def setLocal : TieredMap K V → HMap K V → TieredMap K V
  | .base _ pc ps, m => .base m pc ps
  | .cons p _ pc ps, m => .cons p m pc ps

/-- Rust `TieredMap::reserve(n)`: `self.map.reserve(n)`; std guarantees capacity for
at least `n` more elements, modelled by the minimal compliant growth. -/
def reserve (t : TieredMap K V) (n : Nat) : TieredMap K V :=
  setLocal t ⟨localEntries t, max (localMap t).cap ((localEntries t).length + n)⟩

/-- Rust `TieredMap::shrink_to_fit()`: `self.map.shrink_to_fit()`, modelled as
shrinking the local capacity to the number of local entries. -/
def shrink_to_fit (t : TieredMap K V) : TieredMap K V :=
  setLocal t ⟨localEntries t, (localEntries t).length⟩

/-- Rust `TieredMap::get(k)`:
`self.map.get(k).or_else(|| self.parent.and_then(|parent| parent.get(k)))`. -/
def get : TieredMap K V → K → Option V
  | .base m _ _, k => assocGet m.entries k
  | .cons p m _ _, k => (assocGet m.entries k).orElse (fun _ => get p k)

/-- Rust `TieredMap::contains_key(k)`:
`self.map.contains_key(k) || self.parent.map_or_else(|| false, |p| p.contains_key(k))`. -/
def contains_key : TieredMap K V → K → Bool
  | .base m _ _, k => (assocGet m.entries k).isSome
  | .cons p m _ _, k => (assocGet m.entries k).isSome || contains_key p k

/-- Rust `TieredMap::insert(k, v)`: `self.map.insert(k, v)` — only the local table
changes; the returned value is the previous local value.  Local capacity grows
to hold the new length when needed (minimal documented growth). -/
def insert (t : TieredMap K V) (k : K) (v : V) : Option V × TieredMap K V :=
  let r := assocInsert (localEntries t) k v
  (r.1, setLocal t ⟨r.2, max (localMap t).cap r.2.length⟩)

/-- Rust `TieredMap::new_scope()`: skip this tier when it has a parent and an empty
local table, otherwise attach a fresh empty tier (`HashMap::with_hasher`, so
local capacity 0) whose caches snapshot this tier's aggregate `capacity()` and
`len()`. -/
def new_scope : TieredMap K V → TieredMap K V
  | .base m pc ps =>
    .cons (.base m pc ps) ⟨[], 0⟩ (capacity (.base m pc ps)) (len (.base m pc ps))
  | .cons p m pc ps =>
    if m.entries.isEmpty then new_scope p
    else .cons (.cons p m pc ps) ⟨[], 0⟩ (capacity (.cons p m pc ps)) (len (.cons p m pc ps))

/-- Replace both cached counters of a tier, keeping parent and local table. -/
def setCaches : TieredMap K V → Nat → Nat → TieredMap K V
  | .base m _ _, pc, ps => .base m pc ps
  | .cons p m _ _, pc, ps => .cons p m pc ps

/-- Rust `Clone::clone`: `tm!(self.parent.clone(), self.map.clone(), self.capacity(),
self.len())` — the parent reference is shared, the local table copied, and the
two cache fields are set to the aggregate `capacity()` and `len()` of the
original (not to the original's cache fields). -/
def clone (t : TieredMap K V) : TieredMap K V :=
  setCaches t (capacity t) (len t)

/-- All entries stored anywhere in the chain, innermost tier first; this is
the tier-by-tier concatenation, with no deduplication. -/
def allEntries : TieredMap K V → List (K × V)
  | .base m _ _ => m.entries
  | .cons p m _ _ => m.entries ++ allEntries p

/-- The local entry lists of every tier of the chain, innermost first. -/
def chainMaps : TieredMap K V → List (List (K × V))
  | .base m _ _ => [m.entries]
  | .cons p m _ _ => m.entries :: chainMaps p

/-- Entries stored strictly above the given tier (in its parent chain). -/
def aboveEntries : TieredMap K V → List (K × V)
  | .base _ _ _ => []
  | .cons p _ _ _ => allEntries p

/-- The strict ancestors of a tier, nearest first. -/
def ancestors : TieredMap K V → List (TieredMap K V)
  | .base _ _ _ => []
  | .cons p _ _ _ => p :: ancestors p

/-- Chain length (number of tiers strictly above, i.e. depth of the tier). -/
def depth : TieredMap K V → Nat
  | .base _ _ _ => 0
  | .cons p _ _ _ => depth p + 1

/-- The tier that `new_scope` actually attaches the new scope to: the tier
itself when it is non-empty or the root, else the elision target of its
parent. -/
def elideTarget : TieredMap K V → TieredMap K V
  | .base m pc ps => .base m pc ps
  | .cons p m pc ps => if m.entries.isEmpty then elideTarget p else .cons p m pc ps

/-- Model of `Index::index`: `self.get(index).expect(..)`.  A `none` result
models the MissingKey panic. -/
def indexGet (t : TieredMap K V) (k : K) : Option V :=
  get t k

end TieredMap

export TieredMap (parent? localMap localEntries parentCap parentSize isBase new
  with_capacity capacity len setLocal reserve shrink_to_fit get contains_key
  insert new_scope setCaches clone allEntries chainMaps aboveEntries ancestors
  depth elideTarget indexGet)

/-- Model of the chained iterator `Iter<'a, K, V, H>`: the current tier
(`self.map`) and the remaining entries of the current local iteration
(`self.iter`). -/
structure Iter (K V : Type) where
  map : TieredMap K V
  iter : List (K × V)
  deriving DecidableEq

/-- Rust `TieredMap::iter()`: `Iter { map: self, iter: self.map.iter() }`. -/
def TieredMap.iter (t : TieredMap K V) : Iter K V :=
  ⟨t, localEntries t⟩

namespace Iter

/-- Rust `Iterator::next` for `Iter`, returning the yielded item (if any) together
with the mutated iterator state.  When the local iteration is exhausted the
iterator moves to the parent tier, starts a fresh local iteration there and
immediately takes one step of it. -/
def next : Iter K V → Option (K × V) × Iter K V
  | ⟨t, e :: rest⟩ => (some e, ⟨t, rest⟩)
  | ⟨t, []⟩ =>
    match t.parent? with
    | none => (none, ⟨t, []⟩)
    | some p =>
      match localEntries p with
      | [] => (none, ⟨p, []⟩)
      | e :: rest => (some e, ⟨p, rest⟩)

/-- Rust `Iterator::size_hint` for `Iter` (both bounds coincide):
`self.map.parent.map_or(0, |t| t.len()) + self.iter.len()`. -/
def size_hint (i : Iter K V) : Nat :=
  (match i.map.parent? with
   | none => 0
   | some p => len p) + i.iter.length

/-- Upper bound on the number of items an iterator can still yield: remaining
local entries plus everything stored strictly above the current tier. -/
def remaining (i : Iter K V) : Nat :=
  i.iter.length + (aboveEntries i.map).length

/-- Fuelled driver of the iterator: collect items until `next` yields `none`
or the fuel runs out. -/
def runFuel : Nat → Iter K V → List (K × V)
  | 0, _ => []
  | n + 1, i =>
    match next i with
    | (none, _) => []
    | (some e, j) => e :: runFuel n j

/-- The full sequence of items the iterator yields from this state on
(`remaining` is always enough fuel, see `runFuel_eq_of_le`). -/
def run (i : Iter K V) : List (K × V) :=
  runFuel (remaining i) i

end Iter

/-- The sequence of pairs yielded by a full iteration of the map. -/
def iterList (t : TieredMap K V) : List (K × V) :=
  (TieredMap.iter t).run

/-- Rust `PartialEq::eq` for `TieredMap`:
`self.len() == other.len() && self.iter().all(|(k, v)| other.get(k).map_or(false, |ov| *v == *ov))`. -/
def eqMap (m1 m2 : TieredMap K V) : Bool :=
  len m1 == len m2 &&
    (iterList m1).all (fun kv =>
      match get m2 kv.1 with
      | some ov => kv.2 == ov
      | none => false)

/-! Section: Concrete maps used by counterexamples and witnesses

`exR` is a root holding `1 ↦ 10`; `exS` is a scope of it shadowing the key
with `1 ↦ 30`; `exT` a further scope; `exS1` an empty scope of `exR` on which
`reserve(100)` was called; `exFlat` a root holding `1 ↦ 30` directly. -/

def exR : TieredMap Nat Nat := (insert new 1 10).2

def exS1 : TieredMap Nat Nat := reserve (new_scope exR) 100

def exS : TieredMap Nat Nat := (insert (new_scope exR) 1 30).2

def exT : TieredMap Nat Nat := new_scope exS

def exFlat : TieredMap Nat Nat := (insert new 1 30).2

/-- Raw three-tier chain whose two innermost tiers are empty (the middle one
even carries local capacity): `new_scope` must recurse through both. -/
def exDeep : TieredMap Nat Nat :=
  .cons (.cons (.base ⟨[(1, 10)], 1⟩ 0 0) ⟨[], 5⟩ 3 4) ⟨[], 0⟩ 7 8

/-- Two-tier map without shadowing: root `2 ↦ 5`, scope inserting `1 ↦ 30`. -/
def exW1 : TieredMap Nat Nat := (insert (new_scope (insert new 2 5).2) 1 30).2

/-- Flat root with the same visible contents as `exW1`. -/
def exW2 : TieredMap Nat Nat := (insert (insert new 2 5).2 1 30).2

/-! Section: Reachability and chain invariants

`Built` is the set of maps reachable through the public API (constructors,
`insert`, `new_scope`, `reserve`, `shrink_to_fit`).  In safe Rust a parent can
never be mutated while a child scope borrows it, which the functional model
reflects by value semantics: a child's parent chain is the snapshot taken at
scope creation.  `cacheOK` states that the cached counters of every tier agree
with its parent's aggregates, `goodChain` that no tier ever has an empty
non-root parent (guaranteed by the elision in `new_scope`). -/

inductive Built : TieredMap K V → Prop where
  | root (c : Nat) : Built (TieredMap.with_capacity c)
  | insert (k : K) (v : V) {t : TieredMap K V} :
      Built t → Built (TieredMap.insert t k v).2
  | new_scope {t : TieredMap K V} : Built t → Built (TieredMap.new_scope t)
  | reserve (n : Nat) {t : TieredMap K V} : Built t → Built (TieredMap.reserve t n)
  | shrink {t : TieredMap K V} : Built t → Built (TieredMap.shrink_to_fit t)

/-- Cached counters of every tier agree with the parent's aggregate `len()`
and `capacity()`; roots carry zero caches. -/
def cacheOK : TieredMap K V → Bool
  | .base _ pc ps => ps == 0 && pc == 0
  | .cons p _ pc ps => ps == len p && pc == capacity p && cacheOK p

/-- A tier may serve as a parent when it is non-empty or is the root. -/
def nonEmptyOrRoot (t : TieredMap K V) : Bool :=
  !(localEntries t).isEmpty || isBase t

/-- Every parent link of the chain points at a non-empty tier or the root. -/
def goodChain : TieredMap K V → Bool
  | .base _ _ _ => true
  | .cons p _ _ _ => nonEmptyOrRoot p && goodChain p

/-- Iterator states reachable from a full iteration of `m`: the initial state
and every state after a successful `next` step. -/
inductive Reach (m : TieredMap K V) : Iter K V → Prop where
  | init : Reach m (TieredMap.iter m)
  | step {i : Iter K V} {e : K × V} {j : Iter K V} :
      Reach m i → Iter.next i = (some e, j) → Reach m j

/-- The distinct keys stored anywhere in the chain; by `mem_visibleKeys`
these are exactly the keys on which `get` succeeds. -/
def visibleKeys (t : TieredMap K V) : List K :=
  ((allEntries t).map Prod.fst).dedup

/-- Number of distinct keys visible through the chain. -/
def visibleCount (t : TieredMap K V) : Nat :=
  (visibleKeys t).length

/-- No key occurs in two tiers of the chain (and no tier repeats a key). -/
def NoShadow (t : TieredMap K V) : Prop :=
  ((allEntries t).map Prod.fst).Nodup

instance (t : TieredMap K V) : Decidable (NoShadow t) :=
  inferInstanceAs (Decidable (List.Nodup _))

/-- Decidable probe for extensional equality of the two lookup functions; by
`contentsEq_iff` it holds exactly when `get m1` and `get m2` agree on every
key. -/
def contentsEq (m1 m2 : TieredMap K V) : Bool :=
  (visibleKeys m1 ++ visibleKeys m2).all (fun k => decide (get m1 k = get m2 k))

/-! Section: Association-list lemmas -/

theorem assocGet_assocInsert_fst (l : List (K × V)) (k : K) (v : V) :
    (assocInsert l k v).1 = assocGet l k := by
  induction l with
  | nil => rfl
  | cons e rest ih =>
    by_cases h : e.1 = k <;> simp [assocInsert, assocGet, h, ih]

theorem assocGet_assocInsert_self (l : List (K × V)) (k : K) (v : V) :
    assocGet (assocInsert l k v).2 k = some v := by
  induction l with
  | nil => simp [assocInsert, assocGet]
  | cons e rest ih =>
    by_cases h : e.1 = k <;> simp [assocInsert, assocGet, h, ih]

/-! Section: Structural lemmas about `setLocal` -/

theorem parent?_setLocal (t : TieredMap K V) (m : HMap K V) :
    parent? (setLocal t m) = parent? t := by
  cases t <;> rfl

theorem parentCap_setLocal (t : TieredMap K V) (m : HMap K V) :
    parentCap (setLocal t m) = parentCap t := by
  cases t <;> rfl

theorem parentSize_setLocal (t : TieredMap K V) (m : HMap K V) :
    parentSize (setLocal t m) = parentSize t := by
  cases t <;> rfl

theorem localMap_setLocal (t : TieredMap K V) (m : HMap K V) :
    localMap (setLocal t m) = m := by
  cases t <;> rfl

/-! Section: Chain characterization of `get` -/

theorem get_eq_findSome (t : TieredMap K V) (k : K) :
    get t k = (chainMaps t).findSome? (fun l => assocGet l k) := by
  induction t with
  | base m pc ps =>
    simp only [get, chainMaps, List.findSome?]
    cases assocGet m.entries k <;> rfl
  | cons p m pc ps ih =>
    simp only [get, chainMaps, List.findSome?]
    cases assocGet m.entries k <;> simp [Option.orElse, ih]

theorem findSome?_isNone_iff_all {α β : Type} (f : α → Option β) (l : List α) :
    (l.findSome? f).isNone = l.all (fun a => (f a).isNone) := by
  induction l with
  | nil => rfl
  | cons a as ih =>
    simp only [List.findSome?, List.all_cons]
    cases f a <;> simp [ih]

/-- C4 helper: unfolding of `get` as a local probe with parent fall-through. -/
theorem get_unfold (t : TieredMap K V) (k : K) :
    get t k = (match assocGet (localEntries t) k with
               | some v => some v
               | none =>
                 match parent? t with
                 | some p => get p k
                 | none => none) := by
  cases t with
  | base m pc ps =>
    simp only [get, localEntries, localMap, parent?]
    cases assocGet m.entries k <;> rfl
  | cons p m pc ps =>
    simp only [get, localEntries, localMap, parent?]
    cases assocGet m.entries k <;> simp [Option.orElse]

/-- C4: `get` returns the value from the nearest tier of the chain containing
the key: it is the first hit when probing the chain's local tables innermost
to outermost, so a local hit wins regardless of ancestors, a local miss with a
parent defers to the parent's `get`, and a local miss at the root reports
absence.  `get` is a pure function, so it has no side effects. -/
theorem C4_get_nearest_tier (t : TieredMap K V) (k : K) :
    get t k = (chainMaps t).findSome? (fun l => assocGet l k) ∧
    get t k = (match assocGet (localEntries t) k with
               | some v => some v
               | none =>
                 match parent? t with
                 | some p => get p k
                 | none => none) :=
  ⟨get_eq_findSome t k, get_unfold t k⟩

/-- C9: indexed access is exactly `get` (so it returns `get`'s value whenever
the key is visible) and it signals MissingKey — modelled by `none` — exactly
when the key is absent from every tier's local table along the chain. -/
theorem C9_index_panics_iff_absent_everywhere (t : TieredMap K V) (k : K) :
    indexGet t k = get t k ∧
    (indexGet t k).isNone = (chainMaps t).all (fun l => (assocGet l k).isNone) := by
  refine ⟨rfl, ?_⟩
  rw [indexGet, get_eq_findSome]
  exact findSome?_isNone_iff_all _ _

/-- C7: `insert` returns the value previously stored in the local table for
that key (never an ancestor's value), changes only the local table — the
parent reference and both cached counters are untouched, hence every ancestor
tier is untouched — and afterwards the key is locally bound to the new value,
which therefore shadows any ancestor binding. -/
theorem C7_insert_local_frame (t : TieredMap K V) (k : K) (v : V) :
    (insert t k v).1 = assocGet (localEntries t) k ∧
    parent? (insert t k v).2 = parent? t ∧
    parentCap (insert t k v).2 = parentCap t ∧
    parentSize (insert t k v).2 = parentSize t ∧
    localEntries (insert t k v).2 = (assocInsert (localEntries t) k v).2 ∧
    get (insert t k v).2 k = some v := by
  refine ⟨assocGet_assocInsert_fst _ _ _, parent?_setLocal _ _, parentCap_setLocal _ _,
    parentSize_setLocal _ _, ?_, ?_⟩
  · simp [insert, localEntries, localMap_setLocal]
  · rw [get_unfold]
    simp [insert, localEntries, localMap_setLocal, assocGet_assocInsert_self]

theorem cacheOK_setLocal (t : TieredMap K V) (m : HMap K V) :
    cacheOK (setLocal t m) = cacheOK t := by
  cases t <;> rfl

theorem goodChain_setLocal (t : TieredMap K V) (m : HMap K V) :
    goodChain (setLocal t m) = goodChain t := by
  cases t <;> rfl

/-! Section: Elision: `new_scope` attaches the child to `elideTarget` -/

theorem parent?_new_scope (t : TieredMap K V) :
    parent? (new_scope t) = some (elideTarget t) := by
  induction t with
  | base m pc ps => rfl
  | cons p m pc ps ih =>
    cases hm : m.entries with
    | nil => simpa [new_scope, elideTarget, hm] using ih
    | cons e es => simp [new_scope, elideTarget, hm, parent?]

theorem localEntries_new_scope (t : TieredMap K V) :
    localEntries (new_scope t) = [] := by
  induction t with
  | base m pc ps => rfl
  | cons p m pc ps ih =>
    cases hm : m.entries with
    | nil => simpa [new_scope, hm] using ih
    | cons e es => simp [new_scope, hm, localEntries, localMap]

theorem capacity_new_scope (t : TieredMap K V) :
    capacity (new_scope t) = capacity (elideTarget t) := by
  induction t with
  | base m pc ps => simp [new_scope, elideTarget, capacity, parentCap, localMap]
  | cons p m pc ps ih =>
    cases hm : m.entries with
    | nil => simpa [new_scope, elideTarget, hm] using ih
    | cons e es => simp [new_scope, elideTarget, hm, capacity, parentCap, localMap]

theorem len_new_scope (t : TieredMap K V) (h : cacheOK t = true) :
    len (new_scope t) = len t := by
  induction t with
  | base m pc ps => simp [new_scope, len, parentSize, localEntries, localMap]
  | cons p m pc ps ih =>
    simp only [cacheOK, Bool.and_eq_true, beq_iff_eq] at h
    cases hm : m.entries with
    | nil =>
      have hrec : new_scope (TieredMap.cons p m pc ps) = new_scope p := by
        simp [new_scope, hm]
      have hcons : len (TieredMap.cons p m pc ps) = ps := by
        simp [len, parentSize, localEntries, localMap, hm]
      rw [hrec, ih h.2, hcons, h.1.1]
    | cons e es =>
      simp [new_scope, hm, len, parentSize, localEntries, localMap]

theorem depth_elideTarget_le (t : TieredMap K V) :
    depth (elideTarget t) ≤ depth t := by
  induction t with
  | base m pc ps => exact Nat.le_refl _
  | cons p m pc ps ih =>
    by_cases hm : m.entries.isEmpty
    · calc depth (elideTarget (TieredMap.cons p m pc ps))
          = depth (elideTarget p) := by simp [elideTarget, hm]
        _ ≤ depth p := ih
        _ ≤ depth (TieredMap.cons p m pc ps) := by
            have hd : depth (TieredMap.cons p m pc ps) = depth p + 1 := rfl
            omega
    · simp [elideTarget, hm]

theorem find?_cons_ancestors (p : TieredMap K V) :
    (p :: ancestors p).find? nonEmptyOrRoot = some (elideTarget p) := by
  induction p with
  | base m pc ps =>
    rw [List.find?_cons_of_pos _ (by simp [nonEmptyOrRoot, isBase])]
    rfl
  | cons q m pc ps ih =>
    cases hm : m.entries with
    | nil =>
      have hpred : nonEmptyOrRoot (TieredMap.cons q m pc ps) = false := by
        simp [nonEmptyOrRoot, localEntries, localMap, hm, isBase]
      rw [List.find?_cons_of_neg _ (by simp [hpred])]
      have ha : ancestors (TieredMap.cons q m pc ps) = q :: ancestors q := rfl
      rw [ha, ih]
      simp [elideTarget, hm]
    | cons e es =>
      have hpred : nonEmptyOrRoot (TieredMap.cons q m pc ps) = true := by
        simp [nonEmptyOrRoot, localEntries, localMap, hm]
      rw [List.find?_cons_of_pos _ (by simp [hpred])]
      simp [elideTarget, hm]

/-! Section: Invariants hold for every reachable map -/

theorem cacheOK_new_scope (t : TieredMap K V) (h : cacheOK t = true) :
    cacheOK (new_scope t) = true := by
  induction t with
  | base m pc ps =>
    simp only [cacheOK, Bool.and_eq_true, beq_iff_eq] at h
    simp [new_scope, cacheOK, h.1, h.2]
  | cons p m pc ps ih =>
    simp only [cacheOK, Bool.and_eq_true, beq_iff_eq] at h
    cases hm : m.entries with
    | nil =>
      have hrec : new_scope (TieredMap.cons p m pc ps) = new_scope p := by
        simp [new_scope, hm]
      rw [hrec]
      exact ih h.2
    | cons e es =>
      have hns : new_scope (TieredMap.cons p m pc ps)
          = TieredMap.cons (TieredMap.cons p m pc ps) ⟨[], 0⟩
              (capacity (TieredMap.cons p m pc ps)) (len (TieredMap.cons p m pc ps)) := by
        simp [new_scope, hm]
      rw [hns]
      simp [cacheOK, h.1.1, h.1.2, h.2]

theorem goodChain_new_scope (t : TieredMap K V) (h : goodChain t = true) :
    goodChain (new_scope t) = true := by
  induction t with
  | base m pc ps => simp [new_scope, goodChain, nonEmptyOrRoot, isBase]
  | cons p m pc ps ih =>
    simp only [goodChain, Bool.and_eq_true] at h
    cases hm : m.entries with
    | nil =>
      have hrec : new_scope (TieredMap.cons p m pc ps) = new_scope p := by
        simp [new_scope, hm]
      rw [hrec]
      exact ih h.2
    | cons e es =>
      have hns : new_scope (TieredMap.cons p m pc ps)
          = TieredMap.cons (TieredMap.cons p m pc ps) ⟨[], 0⟩
              (capacity (TieredMap.cons p m pc ps)) (len (TieredMap.cons p m pc ps)) := by
        simp [new_scope, hm]
      rw [hns]
      simp only [goodChain, Bool.and_eq_true]
      exact ⟨by simp [nonEmptyOrRoot, localEntries, localMap, hm], h.1, h.2⟩

theorem built_cacheOK {t : TieredMap K V} (h : Built t) : cacheOK t = true := by
  induction h with
  | root c => rfl
  | insert k v _ ih => rw [TieredMap.insert, cacheOK_setLocal]; exact ih
  | new_scope _ ih => exact cacheOK_new_scope _ ih
  | reserve n _ ih => rw [TieredMap.reserve, cacheOK_setLocal]; exact ih
  | shrink _ ih => rw [TieredMap.shrink_to_fit, cacheOK_setLocal]; exact ih

theorem built_goodChain {t : TieredMap K V} (h : Built t) : goodChain t = true := by
  induction h with
  | root c => rfl
  | insert k v _ ih => rw [TieredMap.insert, goodChain_setLocal]; exact ih
  | new_scope _ ih => exact goodChain_new_scope _ ih
  | reserve n _ ih => rw [TieredMap.reserve, goodChain_setLocal]; exact ih
  | shrink _ ih => rw [TieredMap.shrink_to_fit, goodChain_setLocal]; exact ih

/-- C5 (counterexample): `exS1` is an empty scope of a non-empty root on which
`reserve(100)` was called; creating a scope from it elides the reserved tier,
so the child's aggregate capacity drops below the parent's even though the
aggregate length is preserved. -/
theorem C5_capacity_counterexample :
    len (new_scope exS1) = len exS1 ∧
    localEntries (new_scope exS1) = [] ∧
    capacity (new_scope exS1) ≠ capacity exS1 := by
  decide

/-- C5 (amended): immediately after `S = T.new_scope()` the child's local
table is empty and `S.len() == T.len()`; `S.capacity()` equals the capacity of
the elision target that actually became the parent — which is `T.capacity()`
whenever `T` is not skipped (non-empty or root), but can be smaller when
elision skips empty tiers that hold reserved local capacity. -/
theorem C5_new_scope_len_capacity (T : TieredMap K V) (h : Built T) :
    localEntries (new_scope T) = [] ∧
    len (new_scope T) = len T ∧
    capacity (new_scope T) = capacity (elideTarget T) ∧
    parent? (new_scope T) = some (elideTarget T) :=
  ⟨localEntries_new_scope T, len_new_scope T (built_cacheOK h),
    capacity_new_scope T, parent?_new_scope T⟩

/-- C5 witness: the amended statement evaluated on the one-entry root `exR`. -/
theorem C5_new_scope_len_capacity_witness :
    Built exR ∧
    (localEntries (new_scope exR) = [] ∧
     len (new_scope exR) = len exR ∧
     capacity (new_scope exR) = capacity (elideTarget exR) ∧
     parent? (new_scope exR) = some (elideTarget exR)) :=
  ⟨Built.insert 1 10 (Built.root 0),
    C5_new_scope_len_capacity exR (Built.insert 1 10 (Built.root 0))⟩

/-- C6: creating a scope from a tier with an empty local table and a parent
never attaches the child to that tier; the child's parent is the first tier
among the ancestors that is non-empty or the root, however many consecutive
empty tiers that skips. -/
theorem C6_empty_tier_elision (T : TieredMap K V) (h1 : localEntries T = [])
    (h2 : parent? T ≠ none) :
    parent? (new_scope T) ≠ some T ∧
    parent? (new_scope T) = (ancestors T).find? nonEmptyOrRoot := by
  cases T with
  | base m pc ps => exact absurd rfl h2
  | cons p m pc ps =>
    have hm : m.entries = [] := h1
    constructor
    · rw [parent?_new_scope]
      intro heq
      have htgt : elideTarget (TieredMap.cons p m pc ps) = TieredMap.cons p m pc ps :=
        Option.some_injective _ heq
      have hle : depth (elideTarget (TieredMap.cons p m pc ps)) ≤ depth p := by
        simpa [elideTarget, hm] using depth_elideTarget_le p
      rw [htgt] at hle
      have hd : depth (TieredMap.cons p m pc ps) = depth p + 1 := rfl
      omega
    · rw [parent?_new_scope]
      have : ancestors (TieredMap.cons p m pc ps) = p :: ancestors p := rfl
      rw [this, find?_cons_ancestors]
      simp [elideTarget, hm]

/-- C6 witness: the elision statement evaluated on a chain with two
consecutive empty tiers above a non-empty root. -/
theorem C6_empty_tier_elision_witness :
    localEntries exDeep = [] ∧ parent? exDeep ≠ none ∧
    (parent? (new_scope exDeep) ≠ some exDeep ∧
     parent? (new_scope exDeep) = (ancestors exDeep).find? nonEmptyOrRoot) :=
  ⟨by decide, by decide, C6_empty_tier_elision exDeep (by decide) (by decide)⟩

/-- C1 (code bug): full iteration of a map whose scope shadows a key of its
parent yields the shadowed outer pair as well — the key appears twice in the
yielded sequence and the second yielded pair disagrees with `get`. -/
theorem C1_iteration_yields_shadowed_duplicates :
    iterList exS = [(1, 30), (1, 10)] ∧
    ¬ ((iterList exS).map Prod.fst).Nodup ∧
    get exS 1 = some 30 := by
  decide

/-- C10 (code bug): cloning a root holding a single entry shares the parent
and copies the local table, but sets `parent_size` to the aggregate `len()`
instead of copying the field, so the clone's `len()` and `capacity()` are
inflated and the clone does not compare equal to the original. -/
theorem C10_clone_inflates_len :
    parent? (clone exR) = parent? exR ∧
    localEntries (clone exR) = localEntries exR ∧
    len (clone exR) = 2 ∧
    len exR = 1 ∧
    capacity (clone exR) = 2 ∧
    capacity exR = 1 ∧
    eqMap (clone exR) exR = false := by
  decide

/-! Section: The chained iterator -/

theorem allEntries_eq_local_append (t : TieredMap K V) :
    allEntries t = localEntries t ++ aboveEntries t := by
  cases t <;> simp [allEntries, localEntries, localMap, aboveEntries]

theorem aboveEntries_of_isBase (t : TieredMap K V) (h : isBase t = true) :
    aboveEntries t = [] := by
  cases t with
  | base m pc ps => rfl
  | cons p m pc ps => simp [isBase] at h

theorem next_some_remaining {i : Iter K V} {e : K × V} {j : Iter K V}
    (h : Iter.next i = (some e, j)) : Iter.remaining j < Iter.remaining i := by
  obtain ⟨t, rest⟩ := i
  cases rest with
  | cons x xs =>
    simp only [Iter.next, Prod.mk.injEq, Option.some.injEq] at h
    obtain ⟨he, hj⟩ := h
    subst hj
    simp [Iter.remaining]
  | nil =>
    cases t with
    | base m pc ps => simp [Iter.next, parent?] at h
    | cons p m pc ps =>
      cases hp : localEntries p with
      | nil => simp [Iter.next, parent?, hp] at h
      | cons x xs =>
        simp only [Iter.next, parent?, hp, Prod.mk.injEq, Option.some.injEq] at h
        obtain ⟨he, hj⟩ := h
        subst hj
        have hab : aboveEntries (TieredMap.cons p m pc ps) = allEntries p := rfl
        rw [Iter.remaining, Iter.remaining, hab, allEntries_eq_local_append p, hp]
        simp

/-- Any fuel at least `remaining` computes the same yield sequence, so
`Iter.run` is the sequence obtained by stepping `next` until it returns
`none`, independent of the particular fuel bound. -/
theorem runFuel_eq_run (n : Nat) (i : Iter K V) (h : Iter.remaining i ≤ n) :
    Iter.runFuel n i = Iter.run i := by
  rw [Iter.run]
  induction n using Nat.strong_induction_on generalizing i with
  | _ n ih =>
    cases n with
    | zero =>
      have h0 : Iter.remaining i = 0 := Nat.le_zero.mp h
      rw [h0]
    | succ n =>
      cases hnext : Iter.next i with
      | mk o j =>
        cases o with
        | none =>
          rw [Iter.runFuel, hnext]
          cases hr : Iter.remaining i with
          | zero => rfl
          | succ r => rw [Iter.runFuel, hnext]
        | some e =>
          have hlt : Iter.remaining j < Iter.remaining i := next_some_remaining hnext
          cases hr : Iter.remaining i with
          | zero => rw [hr] at hlt; omega
          | succ r =>
            rw [Iter.runFuel, hnext, Iter.runFuel, hnext]
            have h1 : Iter.runFuel n j = Iter.runFuel (Iter.remaining j) j :=
              ih n (Nat.lt_succ_self n) j (by omega)
            have h2 : Iter.runFuel r j = Iter.runFuel (Iter.remaining j) j :=
              ih r (by omega) j (by omega)
            show e :: Iter.runFuel n j = e :: Iter.runFuel r j
            rw [h1, h2]

theorem runFuel_eq (n : Nat) (t : TieredMap K V) (rest : List (K × V))
    (hn : Iter.remaining ⟨t, rest⟩ ≤ n) (hg : goodChain t = true) :
    Iter.runFuel n ⟨t, rest⟩ = rest ++ aboveEntries t := by
  induction n generalizing t rest with
  | zero =>
    rw [Iter.remaining] at hn
    simp only [Nat.le_zero, Nat.add_eq_zero, List.length_eq_zero] at hn
    rw [Iter.runFuel, hn.1, hn.2]
    rfl
  | succ n ih =>
    cases rest with
    | cons x xs =>
      have hnext : Iter.next ⟨t, x :: xs⟩ = (some x, ⟨t, xs⟩) := rfl
      rw [Iter.runFuel, hnext]
      have hle : Iter.remaining ⟨t, xs⟩ ≤ n := by
        simp only [Iter.remaining, List.length_cons] at hn ⊢
        omega
      show x :: Iter.runFuel n ⟨t, xs⟩ = (x :: xs) ++ aboveEntries t
      rw [ih t xs hle hg]
      rfl
    | nil =>
      cases t with
      | base m pc ps =>
        rw [Iter.runFuel]
        rfl
      | cons p m pc ps =>
        simp only [goodChain, Bool.and_eq_true] at hg
        cases hp : localEntries p with
        | nil =>
          have hbase : isBase p = true := by
            have := hg.1
            rw [nonEmptyOrRoot, hp] at this
            simpa using this
          have hnext : Iter.next ⟨TieredMap.cons p m pc ps, []⟩ = (none, ⟨p, []⟩) := by
            simp [Iter.next, parent?, hp]
          rw [Iter.runFuel, hnext]
          have hab : aboveEntries (TieredMap.cons p m pc ps) = allEntries p := rfl
          rw [hab, allEntries_eq_local_append p, hp, aboveEntries_of_isBase p hbase]
          rfl
        | cons x xs =>
          have hnext : Iter.next ⟨TieredMap.cons p m pc ps, []⟩ = (some x, ⟨p, xs⟩) := by
            simp [Iter.next, parent?, hp]
          rw [Iter.runFuel, hnext]
          have hab : aboveEntries (TieredMap.cons p m pc ps) = allEntries p := rfl
          have hle : Iter.remaining ⟨p, xs⟩ ≤ n := by
            simp only [Iter.remaining, List.length_nil] at hn ⊢
            rw [hab, allEntries_eq_local_append p, hp] at hn
            simp only [List.length_append, List.length_cons] at hn
            omega
          show x :: Iter.runFuel n ⟨p, xs⟩ = [] ++ aboveEntries (TieredMap.cons p m pc ps)
          rw [ih p xs hle hg.2, hab, allEntries_eq_local_append p, hp]
          rfl

theorem run_eq (t : TieredMap K V) (rest : List (K × V)) (hg : goodChain t = true) :
    Iter.run ⟨t, rest⟩ = rest ++ aboveEntries t :=
  runFuel_eq _ t rest (Nat.le_refl _) hg

/-- A full iteration of a map with a well-formed chain yields exactly the
tier-by-tier concatenation of local entries, innermost first. -/
theorem iterList_eq_allEntries (t : TieredMap K V) (hg : goodChain t = true) :
    iterList t = allEntries t := by
  rw [iterList, TieredMap.iter, run_eq t _ hg, allEntries_eq_local_append]

theorem len_eq_allEntries_length (t : TieredMap K V) (h : cacheOK t = true) :
    len t = (allEntries t).length := by
  induction t with
  | base m pc ps =>
    simp only [cacheOK, Bool.and_eq_true, beq_iff_eq] at h
    simp [len, parentSize, localEntries, localMap, allEntries, h.1]
  | cons p m pc ps ih =>
    simp only [cacheOK, Bool.and_eq_true, beq_iff_eq] at h
    have : len (TieredMap.cons p m pc ps) = len p + m.entries.length := by
      simp [len, parentSize, localEntries, localMap, h.1.1]
    rw [this, ih h.2]
    simp [allEntries]
    omega

theorem size_hint_eq_run_length (t : TieredMap K V) (rest : List (K × V))
    (hc : cacheOK t = true) (hg : goodChain t = true) :
    Iter.size_hint ⟨t, rest⟩ = (Iter.run ⟨t, rest⟩).length := by
  rw [run_eq t rest hg]
  cases t with
  | base m pc ps =>
    simp [Iter.size_hint, parent?, aboveEntries]
  | cons p m pc ps =>
    simp only [cacheOK, Bool.and_eq_true, beq_iff_eq] at hc
    have hab : aboveEntries (TieredMap.cons p m pc ps) = allEntries p := rfl
    simp only [Iter.size_hint, parent?, hab, List.length_append]
    rw [len_eq_allEntries_length p hc.2]
    omega

theorem reach_ok {m : TieredMap K V} {i : Iter K V} (hm : Built m)
    (hr : Reach m i) : cacheOK i.map = true ∧ goodChain i.map = true := by
  induction hr with
  | init => exact ⟨built_cacheOK hm, built_goodChain hm⟩
  | step hr hnext ih =>
    rename_i i e j
    obtain ⟨t, rest⟩ := i
    cases rest with
    | cons x xs =>
      simp only [Iter.next, Prod.mk.injEq, Option.some.injEq] at hnext
      rw [← hnext.2]
      exact ih
    | nil =>
      cases t with
      | base mp pc ps => simp [Iter.next, parent?] at hnext
      | cons p mp pc ps =>
        cases hp : localEntries p with
        | nil => simp [Iter.next, parent?, hp] at hnext
        | cons x xs =>
          simp only [Iter.next, parent?, hp, Prod.mk.injEq, Option.some.injEq] at hnext
          rw [← hnext.2]
          obtain ⟨ihc, ihg⟩ := ih
          simp only [cacheOK, Bool.and_eq_true, beq_iff_eq] at ihc
          simp only [goodChain, Bool.and_eq_true] at ihg
          exact ⟨ihc.2, ihg.2⟩

/-- C2: for every map reachable through the API and every iterator state
reachable during its full iteration, the reported `size_hint` (both bounds
coincide, computed as the parent tier's aggregate length plus the entries
remaining in the current local iteration) equals the exact number of items
the iterator actually yields from that state on, across tier boundaries. -/
theorem C2_size_hint_exact (m : TieredMap K V) (hm : Built m) (i : Iter K V)
    (hr : Reach m i) : Iter.size_hint i = (Iter.run i).length := by
  obtain ⟨hc, hg⟩ := reach_ok hm hr
  obtain ⟨t, rest⟩ := i
  exact size_hint_eq_run_length t rest hc hg

/-- C2 witness: the two-tier shadowing map `exS`, checked at the initial
iterator state and at the state after one `next` step. -/
theorem C2_size_hint_exact_witness :
    Built exS ∧
    Iter.next (TieredMap.iter exS) = (some ((1, 30) : Nat × Nat), (⟨exS, []⟩ : Iter Nat Nat)) ∧
    Iter.size_hint (TieredMap.iter exS) = ((TieredMap.iter exS).run).length ∧
    Iter.size_hint (⟨exS, []⟩ : Iter Nat Nat) = (Iter.run (⟨exS, []⟩ : Iter Nat Nat)).length :=
  ⟨Built.insert 1 30 (Built.new_scope (Built.insert 1 10 (Built.root 0))),
    by decide,
    C2_size_hint_exact exS
      (Built.insert 1 30 (Built.new_scope (Built.insert 1 10 (Built.root 0))))
      _ Reach.init,
    C2_size_hint_exact exS
      (Built.insert 1 30 (Built.new_scope (Built.insert 1 10 (Built.root 0))))
      _ (Reach.step Reach.init
          (by decide :
            Iter.next (TieredMap.iter exS)
              = (some ((1, 30) : Nat × Nat), (⟨exS, []⟩ : Iter Nat Nat))))⟩

/-! Section: Visible keys -/

theorem assocGet_isSome_iff (l : List (K × V)) (k : K) :
    (assocGet l k).isSome = true ↔ k ∈ l.map Prod.fst := by
  induction l with
  | nil => simp [assocGet]
  | cons e rest ih =>
    by_cases h : e.1 = k
    · simp [assocGet, h]
    · simp [assocGet, h, ih, Ne.symm h]

theorem assocGet_eq_none_iff (l : List (K × V)) (k : K) :
    assocGet l k = none ↔ k ∉ l.map Prod.fst := by
  rw [← assocGet_isSome_iff]
  cases assocGet l k <;> simp

theorem get_isSome_iff (t : TieredMap K V) (k : K) :
    (get t k).isSome = true ↔ k ∈ (allEntries t).map Prod.fst := by
  induction t with
  | base m pc ps => exact assocGet_isSome_iff m.entries k
  | cons p m pc ps ih =>
    simp only [get, allEntries, List.map_append, List.mem_append]
    cases ha : assocGet m.entries k with
    | some v =>
      simp only [Option.orElse, Option.isSome_some, true_iff]
      exact Or.inl ((assocGet_isSome_iff m.entries k).mp (by rw [ha]; rfl))
    | none =>
      have hnot : k ∉ m.entries.map Prod.fst := (assocGet_eq_none_iff m.entries k).mp ha
      simp [Option.orElse, ih, hnot]

theorem mem_visibleKeys (t : TieredMap K V) (k : K) :
    k ∈ visibleKeys t ↔ (get t k).isSome = true := by
  rw [visibleKeys, List.mem_dedup, get_isSome_iff]

/-! Section: C8: what `parent_size` actually caches -/

theorem parentSize_new_scope (t : TieredMap K V) :
    parentSize (new_scope t) = len (elideTarget t) := by
  induction t with
  | base m pc ps => rfl
  | cons p m pc ps ih =>
    cases hm : m.entries with
    | nil =>
      have hrec : new_scope (TieredMap.cons p m pc ps) = new_scope p := by
        simp [new_scope, hm]
      rw [hrec, ih]
      simp [elideTarget, hm]
    | cons e es =>
      simp [new_scope, elideTarget, hm, parentSize]

theorem cacheOK_elideTarget (t : TieredMap K V) (h : cacheOK t = true) :
    cacheOK (elideTarget t) = true := by
  induction t with
  | base m pc ps => simpa [elideTarget] using h
  | cons p m pc ps ih =>
    by_cases hm : m.entries.isEmpty
    · simp only [elideTarget, hm, if_true]
      simp only [cacheOK, Bool.and_eq_true] at h
      exact ih h.2
    · simpa [elideTarget, hm] using h

/-- C8 (counterexample): in the shadowing chain the scope `exT` created from
`exS` caches `parent_size = 2`, the parent's aggregate `len()`, although only
one distinct key (`1`) is visible through the parent chain. -/
theorem C8_parent_size_counterexample :
    parent? exT = some exS ∧ parentSize exT = 2 ∧
    visibleCount exS = 1 ∧ parentSize exT ≠ visibleCount exS := by
  decide

/-- C8 (amended): a tier created by `new_scope` caches as `parent_size` the
aggregate `len()` of the tier that became its parent (the elision target) at
creation — that is the total entry count of the parent chain counting a
shadowed key once per tier containing it, not the number of distinct visible
keys — and its aggregate `len()` is its local table length plus this cache. -/
theorem C8_parent_size_aggregate (T : TieredMap K V) (h : Built T) :
    parent? (new_scope T) = some (elideTarget T) ∧
    parentSize (new_scope T) = len (elideTarget T) ∧
    len (elideTarget T) = (allEntries (elideTarget T)).length ∧
    len (new_scope T) = (localEntries (new_scope T)).length + parentSize (new_scope T) := by
  refine ⟨parent?_new_scope T, parentSize_new_scope T,
    len_eq_allEntries_length _ (cacheOK_elideTarget T (built_cacheOK h)), ?_⟩
  rw [len]
  omega

/-- C8 witness: the amended statement evaluated on the shadowing scope `exS`. -/
theorem C8_parent_size_aggregate_witness :
    Built exS ∧
    (parent? (new_scope exS) = some (elideTarget exS) ∧
     parentSize (new_scope exS) = len (elideTarget exS) ∧
     len (elideTarget exS) = (allEntries (elideTarget exS)).length ∧
     len (new_scope exS) = (localEntries (new_scope exS)).length + parentSize (new_scope exS)) :=
  ⟨Built.insert 1 30 (Built.new_scope (Built.insert 1 10 (Built.root 0))),
    C8_parent_size_aggregate exS
      (Built.insert 1 30 (Built.new_scope (Built.insert 1 10 (Built.root 0))))⟩

/-! Section: C3: map equality -/

theorem contentsEq_iff (m1 m2 : TieredMap K V) :
    contentsEq m1 m2 = true ↔ ∀ k, get m1 k = get m2 k := by
  constructor
  · intro h k
    rw [contentsEq, List.all_eq_true] at h
    by_cases h1 : k ∈ visibleKeys m1
    · exact of_decide_eq_true (h k (List.mem_append_left _ h1))
    · by_cases h2 : k ∈ visibleKeys m2
      · exact of_decide_eq_true (h k (List.mem_append_right _ h2))
      · have e1 : get m1 k = none := by
          cases hg : get m1 k with
          | none => rfl
          | some v =>
            exact absurd ((mem_visibleKeys m1 k).mpr (by rw [hg]; rfl)) h1
        have e2 : get m2 k = none := by
          cases hg : get m2 k with
          | none => rfl
          | some v =>
            exact absurd ((mem_visibleKeys m2 k).mpr (by rw [hg]; rfl)) h2
        rw [e1, e2]
  · intro h
    rw [contentsEq, List.all_eq_true]
    intro k _
    exact decide_eq_true (h k)

theorem assocGet_of_mem_nodup (l : List (K × V)) (k : K) (v : V)
    (hnd : (l.map Prod.fst).Nodup) (hm : (k, v) ∈ l) : assocGet l k = some v := by
  induction l with
  | nil => simp at hm
  | cons e rest ih =>
    simp only [List.map_cons, List.nodup_cons] at hnd
    rcases List.mem_cons.mp hm with he | hrest
    · rw [← he]
      simp [assocGet]
    · have hne : e.1 ≠ k := by
        intro heq
        apply hnd.1
        rw [heq]
        exact List.mem_map_of_mem Prod.fst hrest
      simp [assocGet, hne, ih hnd.2 hrest]

theorem get_of_mem_noShadow (t : TieredMap K V) (k : K) (v : V)
    (hns : NoShadow t) (hm : (k, v) ∈ allEntries t) : get t k = some v := by
  induction t with
  | base m pc ps => exact assocGet_of_mem_nodup _ _ _ hns hm
  | cons p m pc ps ih =>
    rw [NoShadow, allEntries, List.map_append, List.nodup_append] at hns
    obtain ⟨h1, h2, hdisj⟩ := hns
    rw [allEntries, List.mem_append] at hm
    rcases hm with hm | hm
    · have hl := assocGet_of_mem_nodup m.entries k v h1 hm
      simp [get, hl, Option.orElse]
    · have hknotin : k ∉ m.entries.map Prod.fst := fun hin =>
        hdisj hin (List.mem_map_of_mem Prod.fst hm)
      have hl := (assocGet_eq_none_iff m.entries k).mpr hknotin
      simp only [get, hl, Option.orElse]
      exact ih h2 hm

theorem visibleCount_eq_of_contents (m1 m2 : TieredMap K V)
    (h : ∀ k, get m1 k = get m2 k) : visibleCount m1 = visibleCount m2 := by
  have hsub1 : visibleKeys m1 ⊆ visibleKeys m2 := by
    intro k hk
    rw [mem_visibleKeys] at hk ⊢
    rw [← h k]
    exact hk
  have hsub2 : visibleKeys m2 ⊆ visibleKeys m1 := by
    intro k hk
    rw [mem_visibleKeys] at hk ⊢
    rw [h k]
    exact hk
  exact ((List.subperm_of_subset (List.nodup_dedup _) hsub1).antisymm
    (List.subperm_of_subset (List.nodup_dedup _) hsub2)).length_eq

theorem len_eq_visibleCount (t : TieredMap K V) (hc : cacheOK t = true)
    (hns : NoShadow t) : len t = visibleCount t := by
  rw [len_eq_allEntries_length t hc, visibleCount, visibleKeys,
    List.dedup_eq_self.mpr hns, List.length_map]

/-- C3 (counterexample): the two-tier map `exS` and the flat root `exFlat`
have identical visible contents through `get` (witnessed by the decidable
probe `contentsEq`, which by `contentsEq_iff` is extensional lookup equality)
and different tier shapes, yet `==` reports them different, because
the shadowed pair of `exS` inflates its aggregate `len()`. -/
theorem C3_same_contents_not_equal :
    parent? exS ≠ none ∧ parent? exFlat = none ∧
    contentsEq exS exFlat = true ∧
    eqMap exS exFlat = false ∧ eqMap exFlat exS = false := by
  decide

/-- C3 (amended): `==` compares aggregate `len()` and checks every yielded
pair via lookup on the other map; for reachable maps in which no key is
shadowed (each key stored in at most one tier), extensional equality of the
lookup functions implies `==` — lookup-through-the-chain equality, independent
of tier shapes.  With shadowing, equal visible contents do not suffice. -/
theorem C3_lookup_equality_no_shadowing (m1 m2 : TieredMap K V)
    (hb1 : Built m1) (hb2 : Built m2) (hs1 : NoShadow m1) (hs2 : NoShadow m2)
    (h : ∀ k, get m1 k = get m2 k) : eqMap m1 m2 = true := by
  rw [eqMap, Bool.and_eq_true]
  constructor
  · rw [beq_iff_eq, len_eq_visibleCount m1 (built_cacheOK hb1) hs1,
      len_eq_visibleCount m2 (built_cacheOK hb2) hs2]
    exact visibleCount_eq_of_contents m1 m2 h
  · rw [List.all_eq_true]
    intro kv hkv
    obtain ⟨k, v⟩ := kv
    rw [iterList_eq_allEntries m1 (built_goodChain hb1)] at hkv
    have hg1 : get m1 k = some v := get_of_mem_noShadow m1 k v hs1 hkv
    have hg2 : get m2 k = some v := by rw [← h k]; exact hg1
    simp [hg2]

/-- C3 witness: two shadow-free maps with different tier shapes and equal
visible contents compare equal. -/
theorem C3_lookup_equality_no_shadowing_witness :
    Built exW1 ∧ Built exW2 ∧ NoShadow exW1 ∧ NoShadow exW2 ∧
    contentsEq exW1 exW2 = true ∧ eqMap exW1 exW2 = true :=
  ⟨Built.insert 1 30 (Built.new_scope (Built.insert 2 5 (Built.root 0))),
    Built.insert 1 30 (Built.insert 2 5 (Built.root 0)),
    by decide, by decide, by decide,
    C3_lookup_equality_no_shadowing exW1 exW2
      (Built.insert 1 30 (Built.new_scope (Built.insert 2 5 (Built.root 0))))
      (Built.insert 1 30 (Built.insert 2 5 (Built.root 0)))
      (by decide) (by decide)
      ((contentsEq_iff exW1 exW2).mp (by decide))⟩

end TieredMapModel
